import Mathlib

/-!
Verification of the FossFLOW AI compact-diagram pipeline.

This file gives a shallow embedding of the schema validator and normalizer
found in the repository (the `normalizeCompactDiagram` / `normalizeView` /
`normalizeIconId` / `buildIconIdSet` family and `validateAICompactDiagram`)
and proves the specified properties about them.

Untrusted JSON-ish inputs are modelled by the inductive type `JVal`.
JavaScript numbers are modelled as exact rationals plus NaN and the two
infinities; the float-specific rendering of non-integral numbers and the
recursive stringification of nested arrays are abstracted (documented at
`jnumToString` and `jsPrimString`), neither affects any claim below.
-/

set_option autoImplicit false

attribute [local semireducible] Rat.add Rat.mul Rat.inv Rat.sub Rat.ofScientific

/-- A JavaScript number: a finite value (modelled exactly as a rational),
NaN, or one of the two infinities (`inf true` is positive infinity). -/
inductive JNum where
  | fin : ℚ → JNum
  | nan : JNum
  | inf : Bool → JNum
deriving DecidableEq

/-- An untyped JavaScript value as it can reach the normalizer: strings,
numbers, booleans, `null`, `undefined`, arrays and plain objects (an object
is a list of key/value fields, looked up first-match like a JS object with
string keys). -/
inductive JVal where
  | str : String → JVal
  | num : JNum → JVal
  | bool : Bool → JVal
  | null : JVal
  | undefined : JVal
  | arr : List JVal → JVal
  | obj : List (String × JVal) → JVal

/-- `Array.isArray(v) ? v : []` — the defensive array coercion the source
applies to every list it reads from the raw payload. -/
def asArray : JVal → List JVal
  | .arr l => l
  | _ => []

/-- Is the value an array (`Array.isArray`)? -/
def isArrayVal : JVal → Bool
  | .arr _ => true
  | _ => false

/-- Is the value a string (`typeof v === 'string'`)? -/
def isStringVal : JVal → Bool
  | .str _ => true
  | _ => false

/-- Is the value a number (`typeof v === 'number'`, so NaN and the
infinities also count)? -/
def isNumberVal : JVal → Bool
  | .num _ => true
  | _ => false

/-- `typeof v === 'object'` — true for plain objects, arrays and `null`. -/
def typeofIsObject : JVal → Bool
  | .obj _ => true
  | .arr _ => true
  | .null => true
  | _ => false

/-- JavaScript truthiness. -/
def truthy : JVal → Bool
  | .str s => s ≠ ""
  | .num (.fin q) => q ≠ 0
  | .num .nan => false
  | .num (.inf _) => true
  | .bool b => b
  | .null => false
  | .undefined => false
  | .arr _ => true
  | .obj _ => true

/-- Optional-chained property access `v?.[key]`: field lookup on objects
(first matching key wins), `undefined` on everything else. -/
def jget (v : JVal) (key : String) : JVal :=
  match v with
  | .obj fields =>
    match fields.find? (fun p => p.1 == key) with
    | some p => p.2
    | none => .undefined
  | _ => .undefined

/-- The characters treated as whitespace by `String.prototype.trim` and by
the `\s` character class (restricted to the ASCII range; the additional
Unicode space code points never occur in the inputs of interest). -/
def isJsSpace (c : Char) : Bool :=
  c.toNat = 32 || c.toNat = 9 || c.toNat = 10 || c.toNat = 13 ||
    c.toNat = 11 || c.toNat = 12

/-- `trim()` on a character list: drop whitespace from both ends. -/
def jsTrimList (cs : List Char) : List Char :=
  ((cs.dropWhile isJsSpace).reverse.dropWhile isJsSpace).reverse

/-- JavaScript `s.trim()`. -/
def jsTrim (s : String) : String :=
  String.mk (jsTrimList s.data)

/-- ASCII lower-casing of one character, as `toLowerCase` acts on the
ASCII range (the Unicode case mappings outside ASCII are irrelevant here:
every icon identifier is ASCII). -/
def jsLowerChar (c : Char) : Char :=
  if 65 ≤ c.toNat ∧ c.toNat ≤ 90 then Char.ofNat (c.toNat + 32) else c

/-- JavaScript `s.toLowerCase()` (ASCII range). -/
def jsToLower (s : String) : String :=
  String.mk (s.data.map jsLowerChar)

/-- Digit characters of a natural number, most significant first; the first
argument is recursion fuel (any fuel larger than the digit count, e.g. the
number itself plus one, gives the exact digits). -/
def natDigitsAux : ℕ → ℕ → List Char
  | 0, _ => []
  | fuel + 1, n =>
    if n = 0 then [] else natDigitsAux fuel (n / 10) ++ [Char.ofNat (48 + n % 10)]

/-- Decimal rendering of a natural number (how a nonnegative integer is
interpolated into a JS template string). -/
def natToString (n : ℕ) : String :=
  if n = 0 then "0" else String.mk (natDigitsAux (n + 1) n)

/-- Decimal rendering of an integer. -/
def intToString (n : ℤ) : String :=
  if n < 0 then "-" ++ natToString n.natAbs else natToString n.natAbs

/-- Rendering of a JS number to a string. Integral values render exactly as
in JS; for non-integral finite values the exact ECMAScript double-to-string
algorithm is abstracted by a numerator/denominator rendering (no claim
below depends on the rendering of a non-integral number). -/
def jnumToString : JNum → String
  | .nan => "NaN"
  | .inf true => "Infinity"
  | .inf false => "-Infinity"
  | .fin q =>
    if q.den = 1 then intToString q.num
    else intToString q.num ++ "/" ++ natToString q.den

/-- Stringification of one array element inside `Array.prototype.join`:
`null` and `undefined` render as the empty string, primitives render via
`String(...)`, a plain object renders as `[object Object]`, and the
rendering of a *nested* array is abstracted as the empty string (exact for
the empty and singleton-empty nestings, which are the only ones any claim
touches). -/
def jsPrimString : JVal → String
  | .str s => s
  | .null => ""
  | .undefined => ""
  | .bool b => if b then "true" else "false"
  | .num n => jnumToString n
  | .obj _ => "[object Object]"
  | .arr _ => ""

/-- Comma-joining for `Array.prototype.toString`. -/
def commaJoin : List String → String
  | [] => ""
  | [s] => s
  | s :: rest => s ++ "," ++ commaJoin rest

/-- The source's `toSafeString`: strings pass through, `null`/`undefined`
become the empty string, everything else is `String(value)`. -/
def toSafeString : JVal → String
  | .str s => s
  | .null => ""
  | .undefined => ""
  | .bool b => if b then "true" else "false"
  | .num n => jnumToString n
  | .obj _ => "[object Object]"
  | .arr l => commaJoin (l.map jsPrimString)

/-- Plain JavaScript `String(value)` (used by `buildIconIdSet`): differs
from `toSafeString` only on `null` and `undefined`. -/
def jsString : JVal → String
  | .null => "null"
  | .undefined => "undefined"
  | v => toSafeString v

/-- Value of a nonempty digit string. -/
def digitsToNat (cs : List Char) : ℕ :=
  cs.foldl (fun acc c => acc * 10 + (c.toNat - 48)) 0

/-- JS `ToNumber` on strings, covering the whitespace-trimmed decimal forms
(optional sign, integer digits, optional fraction) and `Infinity`; the
hexadecimal/binary/exponent literal forms, which no claim exercises, are
mapped to NaN. -/
def strToNumber (s : String) : JNum :=
  let cs := jsTrimList s.data
  match cs with
  | [] => .fin 0
  | _ =>
    let neg : Bool := match cs with
      | '-' :: _ => true
      | _ => false
    let rest : List Char := match cs with
      | '+' :: r => r
      | '-' :: r => r
      | r => r
    let sign : ℚ := if neg then -1 else 1
    if rest = "Infinity".data then .inf (!neg)
    else
      let intPart := rest.takeWhile Char.isDigit
      let fracRest := rest.dropWhile Char.isDigit
      match fracRest with
      | [] => if intPart = [] then .nan else .fin (sign * digitsToNat intPart)
      | '.' :: fracDigits =>
        if fracDigits.all Char.isDigit ∧ (intPart ≠ [] ∨ fracDigits ≠ []) then
          .fin (sign * ((digitsToNat intPart : ℚ) +
            (digitsToNat fracDigits : ℚ) / (10 ^ fracDigits.length)))
        else .nan
      | _ => .nan

/-- JavaScript `Number(value)`. Arrays and objects convert via their string
rendering, exactly as in JS. -/
def toNumber : JVal → JNum
  | .num n => n
  | .null => .fin 0
  | .undefined => .nan
  | .bool b => .fin (if b then 1 else 0)
  | .str s => strToNumber s
  | .arr l => strToNumber (toSafeString (.arr l))
  | .obj l => strToNumber (toSafeString (.obj l))

/-- JavaScript `Math.round`: round half towards positive infinity. -/
def jsRound (q : ℚ) : ℤ := ⌊q + 1 / 2⌋

/-! ## Icon resolution (`buildIconIdSet`, `normalizeIconId`) -/

/-- The fixed built-in icon catalog (`AVAILABLE_ICON_IDS`). -/
def AVAILABLE_ICON_IDS : List String :=
  ["block", "cache", "cardterminal", "cloud", "cronjob", "cube", "desktop",
   "diamond", "dns", "document", "firewall", "function-module", "image",
   "laptop", "loadbalancer", "lock", "mail", "mailmultiple", "mobiledevice",
   "office", "package-module", "paymentcard", "plane", "printer", "pyramid",
   "queue", "router", "server", "speech", "sphere", "storage",
   "switch-module", "tower", "truck-2", "truck", "user", "vm"]

/-- The legacy / alternate icon-name alias table (`LEGACY_ICON_MAP`). -/
def LEGACY_ICON_MAP : List (String × String) :=
  [("person", "user"), ("web_app", "desktop"), ("webapp", "desktop"),
   ("api", "server"), ("load_balancer", "loadbalancer"),
   ("loadbalancer", "loadbalancer"), ("microservice", "cube"),
   ("redis", "cache"), ("authentication", "lock"), ("shield", "firewall"),
   ("gateway", "router"), ("bank", "paymentcard"), ("database", "storage"),
   ("notification", "mail"), ("monitoring", "desktop"), ("cdn", "cloud"),
   ("mobile", "mobiledevice"), ("backup", "storage"),
   ("analytics", "diamond"), ("logs", "document")]

/-- Record lookup `LEGACY_ICON_MAP[key]` (a miss is `undefined`, i.e.
`none`). -/
def legacyLookup (key : String) : Option String :=
  (LEGACY_ICON_MAP.find? (fun p => p.1 == key)).map (fun p => p.2)

/-- `Set.prototype.add`, on the list model of a JS string set: membership
is what the code observes, insertion order preserved. -/
def setAdd (ids : List String) (x : String) : List String :=
  if x ∈ ids then ids else ids ++ [x]

/-- `buildIconIdSet`: the built-in catalog plus every existing icon whose
`id` field is truthy, stringified. (The `Array.isArray` guard in the source
is the identity here because the argument is already a list.) -/
def buildIconIdSet (existingIcons : List JVal) : List String :=
  existingIcons.foldl
    (fun ids icon =>
      if truthy (jget icon "id") then setAdd ids (jsString (jget icon "id"))
      else ids)
    AVAILABLE_ICON_IDS

/-- Collapse every run of whitespace/hyphen characters into a single
underscore: `raw.replace(/[\s-]+/g, '_')`. -/
def collapseSeps : List Char → List Char
  | [] => []
  | [c] => if isJsSpace c || c = '-' then ['_'] else [c]
  | c :: d :: rest =>
    if isJsSpace c || c = '-' then
      if isJsSpace d || d = '-' then collapseSeps (d :: rest)
      else '_' :: collapseSeps (d :: rest)
    else c :: collapseSeps (d :: rest)

/-- `raw.replace(/_/g, '-')`. -/
def underToHyphen (c : Char) : Char :=
  if c = '_' then '-' else c

/-- Is the character removed by `raw.replace(/[-_\s]+/g, '')`? -/
def isSepChar (c : Char) : Bool :=
  isJsSpace c || c = '-' || c = '_'

/-- The tail of `normalizeIconId` after the legacy-alias step: hyphenated
candidate, then compacted candidate, then the default. -/
def normalizeIconIdFallback (raw : String) (iconIds : List String) : String :=
  let hyphenCandidate := String.mk (raw.data.map underToHyphen)
  if hyphenCandidate ∈ iconIds then hyphenCandidate
  else
    let compactCandidate := String.mk (raw.data.filter (fun c => !isSepChar c))
    if compactCandidate ∈ iconIds then compactCandidate
    else "block"

/-- `normalizeIconId`: resolve a free-form icon label to a member of the
known-icon set, via (in order) the lower-cased trimmed value itself, the
legacy alias table, the hyphenated form, the fully compacted form, and the
default `block`. -/
def normalizeIconId (iconId : String) (iconIds : List String) : String :=
  let raw := jsToLower (jsTrim (toSafeString (.str iconId)))
  if raw = "" then "block"
  else if raw ∈ iconIds then raw
  else
    let normalizedKey := String.mk (collapseSeps raw.data)
    let mapped := (legacyLookup normalizedKey).orElse (fun _ => legacyLookup raw)
    match mapped with
    | some m =>
      if m ∈ iconIds then m else normalizeIconIdFallback raw iconIds
    | none => normalizeIconIdFallback raw iconIds

/-! ## View normalization (`normalizeView`, `autoLayoutPositions`) -/

/-- A normalized position `[itemIndex, x, y]`: the item index is whatever
finite number survived the checks (the code does not round it), the
coordinates are rounded to integers. -/
abbrev CPos := ℚ × ℤ × ℤ

/-- A normalized connection `[fromIndex, toIndex]`. -/
abbrev CConn := ℚ × ℚ

/-- A normalized view `[positions, connections]`. -/
abbrev CView := List CPos × List CConn

/-- The position loop of `normalizeView`: walk the raw position list with
the running `usedIndices` set (modelled as the list of numbers added so
far; only membership is observed), keeping entries that are arrays of
length at least 3 whose first three elements coerce to finite numbers,
whose item index is inside `[0, itemCount)` and not yet used. The loop has
two outputs, the kept positions and the final `usedIndices`; it is embedded
once per output (`normPositions` and `normPositionsUsed` walk the raw list
identically). -/
def normPositions (itemCount : ℕ) (used : List ℚ) : List JVal → List CPos
  | [] => []
  | pos :: rest =>
    match pos with
    | .arr l =>
      if l.length < 3 then normPositions itemCount used rest
      else
        match toNumber (l.getD 0 .undefined), toNumber (l.getD 1 .undefined),
            toNumber (l.getD 2 .undefined) with
        | .fin itemIndex, .fin x, .fin y =>
          if itemIndex < 0 ∨ (itemCount : ℚ) ≤ itemIndex ∨ itemIndex ∈ used then
            normPositions itemCount used rest
          else
            (itemIndex, jsRound x, jsRound y) ::
              normPositions itemCount (itemIndex :: used) rest
        | _, _, _ => normPositions itemCount used rest
    | _ => normPositions itemCount used rest

/-- The final `usedIndices` of the position loop (see `normPositions`). -/
def normPositionsUsed (itemCount : ℕ) (used : List ℚ) : List JVal → List ℚ
  | [] => used
  | pos :: rest =>
    match pos with
    | .arr l =>
      if l.length < 3 then normPositionsUsed itemCount used rest
      else
        match toNumber (l.getD 0 .undefined), toNumber (l.getD 1 .undefined),
            toNumber (l.getD 2 .undefined) with
        | .fin itemIndex, .fin _, .fin _ =>
          if itemIndex < 0 ∨ (itemCount : ℚ) ≤ itemIndex ∨ itemIndex ∈ used then
            normPositionsUsed itemCount used rest
          else normPositionsUsed itemCount (itemIndex :: used) rest
        | _, _, _ => normPositionsUsed itemCount used rest
    | _ => normPositionsUsed itemCount used rest

/-- `Math.ceil(Math.sqrt(n))` for a natural number (the doubles involved
are exact at every size that can occur). -/
def ceilSqrtGo (n : ℕ) : ℕ → ℕ → ℕ
  | 0, k => k
  | fuel + 1, k => if n ≤ k * k then k else ceilSqrtGo n fuel (k + 1)

/-- Least `k` with `n ≤ k * k`, i.e. `⌈√n⌉`. -/
def ceilSqrt (n : ℕ) : ℕ := ceilSqrtGo n n 0

/-- The loop of `autoLayoutPositions`: the first argument is the number of
remaining indices (the loop runs `index` from `0` to `itemCount - 1`, so it
starts at `itemCount`); `placed` counts the items actually placed and
advances the grid cursor. Spacing is the fixed 4 grid units. -/
def autoLayoutGo (columns : ℕ) (used : List ℚ) :
    ℕ → ℕ → ℕ → List CPos
  | 0, _, _ => []
  | remaining + 1, index, placed =>
    if (index : ℚ) ∈ used then autoLayoutGo columns used remaining (index + 1) placed
    else
      ((index : ℚ), ((placed % columns : ℕ) : ℤ) * 4, ((placed / columns : ℕ) : ℤ) * 4) ::
        autoLayoutGo columns used remaining (index + 1) (placed + 1)

/-- `autoLayoutPositions`: grid positions for every item index not yet
used, with column count `max(4, ceil(sqrt(itemCount)))`, filling row-major
in index order. -/
def autoLayoutPositions (itemCount : ℕ) (used : List ℚ) : List CPos :=
  if itemCount = 0 then []
  else autoLayoutGo (max 4 (ceilSqrt itemCount)) used itemCount 0 0

/-- The connection loop of `normalizeView`: keep entries that are arrays of
length at least 2 whose first two elements coerce to finite numbers inside
`[0, itemCount)`. -/
def normConnections (itemCount : ℕ) : List JVal → List CConn
  | [] => []
  | conn :: rest =>
    match conn with
    | .arr l =>
      if l.length < 2 then normConnections itemCount rest
      else
        match toNumber (l.getD 0 .undefined), toNumber (l.getD 1 .undefined) with
        | .fin fromIndex, .fin toIndex =>
          if fromIndex < 0 ∨ (itemCount : ℚ) ≤ fromIndex ∨
              toIndex < 0 ∨ (itemCount : ℚ) ≤ toIndex then
            normConnections itemCount rest
          else (fromIndex, toIndex) :: normConnections itemCount rest
        | _, _ => normConnections itemCount rest
    | _ => normConnections itemCount rest

/-- `normalizeView`: normalize one raw view against the item count; when
`ensureAllItems` is set (the first view), auto-laid-out positions for the
unused indices are appended after the explicit ones. -/
def normalizeView (view : JVal) (itemCount : ℕ) (ensureAllItems : Bool) : CView :=
  let rawView := asArray view
  let rawPositions := asArray (rawView.getD 0 .undefined)
  let rawConnections := asArray (rawView.getD 1 .undefined)
  let explicitPositions := normPositions itemCount [] rawPositions
  let usedIndices := normPositionsUsed itemCount [] rawPositions
  let positions :=
    if ensureAllItems then
      explicitPositions ++ autoLayoutPositions itemCount usedIndices
    else explicitPositions
  (positions, normConnections itemCount rawConnections)

/-! ## Diagram normalization (`normalizeCompactDiagram`) -/

/-- A normalized item `[name, icon, description]`. -/
abbrev CItem := String × String × String

/-- One step of the item map: coerce the entry to an array, name from the
first element (trimmed, with the synthesized `Item <index+1>` fallback),
icon through the resolver, description from the third element. -/
def normalizeItem (iconIds : List String) (index : ℕ) (item : JVal) : CItem :=
  let rawItem := asArray item
  let name0 := jsTrim (toSafeString (rawItem.getD 0 .undefined))
  let name := if name0 = "" then "Item " ++ natToString (index + 1) else name0
  let icon := normalizeIconId (toSafeString (rawItem.getD 1 .undefined)) iconIds
  let description := toSafeString (rawItem.getD 2 .undefined)
  (name, icon, description)

/-- `rawItems.map((item, index) => ...)` with its running index. -/
def normalizeItemsFrom (iconIds : List String) : ℕ → List JVal → List CItem
  | _, [] => []
  | index, item :: rest =>
    normalizeItem iconIds index item :: normalizeItemsFrom iconIds (index + 1) rest

/-- The item normalizer: repair every raw entry in place. -/
def normalizeItems (rawItems : List JVal) (iconIds : List String) : List CItem :=
  normalizeItemsFrom iconIds 0 rawItems

/-- `views.map((view, index) => normalizeView(view, items.length, index === 0))`
with its running index. -/
def normalizeViewsFrom (itemCount : ℕ) : ℕ → List JVal → List CView
  | _, [] => []
  | index, view :: rest =>
    normalizeView view itemCount (index == 0) ::
      normalizeViewsFrom itemCount (index + 1) rest

/-- The normalized diagram: title, items, views, and the fixed compact
format metadata `{ f: 'compact', v: '1.0' }`. -/
structure CompactDiagram where
  t : String
  i : List CItem
  v : List CView
  meta : String × String
deriving DecidableEq

/-- `normalizeCompactDiagram`: total repair of an arbitrary payload into a
well-formed compact diagram. -/
def normalizeCompactDiagram (diagram : JVal) (existingIcons : List JVal) :
    CompactDiagram :=
  let iconIds := buildIconIdSet existingIcons
  let title0 := jsTrim (toSafeString (jget diagram "t"))
  let title := if title0 = "" then "Untitled" else title0
  let rawItems := asArray (jget diagram "i")
  let items := normalizeItems rawItems iconIds
  let rawViews := asArray (jget diagram "v")
  let views :=
    normalizeViewsFrom items.length 0
      (if rawViews.length = 0 then [JVal.arr []] else rawViews)
  ⟨title, items, views, ("compact", "1.0")⟩

/-- Re-embedding of a normalized position into a raw JS value, for feeding
a normalized diagram back into the normalizer. -/
def posToJVal (p : CPos) : JVal :=
  .arr [.num (.fin p.1), .num (.fin (p.2.1 : ℚ)), .num (.fin (p.2.2 : ℚ))]

/-- Re-embedding of a normalized connection. -/
def connToJVal (c : CConn) : JVal :=
  .arr [.num (.fin c.1), .num (.fin c.2)]

/-- Re-embedding of a normalized view. -/
def viewToJVal (v : CView) : JVal :=
  .arr [.arr (v.1.map posToJVal), .arr (v.2.map connToJVal)]

/-- Re-embedding of a normalized item. -/
def itemToJVal (it : CItem) : JVal :=
  .arr [.str it.1, .str it.2.1, .str it.2.2]

/-- Re-embedding of a normalized diagram (its JSON wire shape). -/
def diagramToJVal (d : CompactDiagram) : JVal :=
  .obj [("t", .str d.t), ("i", .arr (d.i.map itemToJVal)),
        ("v", .arr (d.v.map viewToJVal)),
        ("_", .obj [("f", .str d.meta.1), ("v", .str d.meta.2)])]

/-! ## Schema validation (`validateAICompactDiagram`) -/

/-- The item loop of the validator, fail-fast with the index-carrying
messages of the source. -/
def validateItemsFrom : ℕ → List JVal → Except String Unit
  | _, [] => .ok ()
  | index, item :: rest =>
    let l := asArray item
    if !isArrayVal item || l.length < 2 then
      .error ("Item at index " ++ natToString index ++
        " must be [name, icon, description?]")
    else if !isStringVal (l.getD 0 .undefined) ||
        jsTrim (toSafeString (l.getD 0 .undefined)) = "" then
      .error ("Item at index " ++ natToString index ++ " must have a name")
    else if !isStringVal (l.getD 1 .undefined) ||
        jsTrim (toSafeString (l.getD 1 .undefined)) = "" then
      .error ("Item at index " ++ natToString index ++ " must have an icon ID")
    else
      match l.getD 2 .undefined with
      | .undefined => validateItemsFrom (index + 1) rest
      | .str _ => validateItemsFrom (index + 1) rest
      | _ =>
        .error ("Item description at index " ++ natToString index ++
          " must be a string if provided")

/-- The position loop of the validator for one view. -/
def validatePositionsFrom (viewIndex : ℕ) : ℕ → List JVal → Except String Unit
  | _, [] => .ok ()
  | posIndex, pos :: rest =>
    let l := asArray pos
    if !isArrayVal pos || l.length < 3 then
      .error ("Position at index " ++ natToString posIndex ++ " in view " ++
        natToString viewIndex ++ " must be [itemIndex, x, y]")
    else if !isNumberVal (l.getD 0 .undefined) || !isNumberVal (l.getD 1 .undefined) ||
        !isNumberVal (l.getD 2 .undefined) then
      .error ("Position at index " ++ natToString posIndex ++ " in view " ++
        natToString viewIndex ++ " must contain numbers")
    else validatePositionsFrom viewIndex (posIndex + 1) rest

/-- The connection loop of the validator for one view. -/
def validateConnectionsFrom (viewIndex : ℕ) : ℕ → List JVal → Except String Unit
  | _, [] => .ok ()
  | connIndex, conn :: rest =>
    let l := asArray conn
    if !isArrayVal conn || l.length < 2 then
      .error ("Connection at index " ++ natToString connIndex ++ " in view " ++
        natToString viewIndex ++ " must be [fromIndex, toIndex]")
    else if !isNumberVal (l.getD 0 .undefined) || !isNumberVal (l.getD 1 .undefined) then
      .error ("Connection at index " ++ natToString connIndex ++ " in view " ++
        natToString viewIndex ++ " must contain numbers")
    else validateConnectionsFrom viewIndex (connIndex + 1) rest

/-- The view loop of the validator. -/
def validateViewsFrom : ℕ → List JVal → Except String Unit
  | _, [] => .ok ()
  | viewIndex, view :: rest =>
    let l := asArray view
    if !isArrayVal view || l.length < 2 then
      .error ("View at index " ++ natToString viewIndex ++
        " must be [positions, connections]")
    else
      let positions := l.getD 0 .undefined
      let connections := l.getD 1 .undefined
      if !isArrayVal positions || !isArrayVal connections then
        .error ("View at index " ++ natToString viewIndex ++
          " must contain arrays for positions and connections")
      else
        match validatePositionsFrom viewIndex 0 (asArray positions) with
        | .error e => .error e
        | .ok _ =>
          match validateConnectionsFrom viewIndex 0 (asArray connections) with
          | .error e => .error e
          | .ok _ => validateViewsFrom (viewIndex + 1) rest

/-- `validateAICompactDiagram`: the strict fail-fast pre-check applied to a
payload fetched directly from the LLM. -/
def validateAICompactDiagram (diagram : JVal) : Except String Unit :=
  if !truthy diagram || !typeofIsObject diagram then
    .error "Diagram must be a JSON object"
  else if !truthy (jget diagram "t") || !isStringVal (jget diagram "t") then
    .error "Diagram must have a title string in \"t\""
  else if !isArrayVal (jget diagram "i") ||
      (asArray (jget diagram "i")).length = 0 then
    .error "Diagram must have at least one item in \"i\""
  else
    match validateItemsFrom 0 (asArray (jget diagram "i")) with
    | .error e => .error e
    | .ok _ =>
      if !isArrayVal (jget diagram "v") then
        .error "Diagram must have a views array in \"v\""
      else validateViewsFrom 0 (asArray (jget diagram "v"))

/-! ## Claim-side specification functions

These functions are written from the wording of the specification (not from
the source); the theorems below compare them with the embedded source
functions. -/

/-- The per-entry test of the position pass as the specification words it,
parameterized by the arity test `lenOk` on the raw entry (the specification
says "3-element array"; the code accepts length at least 3): the entry must
be an array passing `lenOk`, its first three elements must coerce to finite
numbers, the item index must lie in `[0, itemCount)` and must not be among
`seen`, the item indices already placed earlier in the same pass. Retained
coordinates are rounded to the nearest integer. -/
def claimPosValue (lenOk : ℕ → Bool) (itemCount : ℕ) (seen : List ℚ)
    (pos : JVal) : Option CPos :=
  match pos with
  | .arr l =>
    if lenOk l.length then
      match toNumber (l.getD 0 .undefined), toNumber (l.getD 1 .undefined),
          toNumber (l.getD 2 .undefined) with
      | .fin itemIndex, .fin x, .fin y =>
        if 0 ≤ itemIndex ∧ itemIndex < (itemCount : ℚ) ∧ itemIndex ∉ seen then
          some (itemIndex, jsRound x, jsRound y)
        else none
      | _, _, _ => none
    else none
  | _ => none

/-- The position pass as the specification words it: walk the raw list,
keeping exactly the entries accepted by `claimPosValue` against the item
indices retained so far (first occurrence wins). -/
def claimPositionsAux (lenOk : ℕ → Bool) (itemCount : ℕ) (acc : List CPos) :
    List JVal → List CPos
  | [] => acc
  | pos :: rest =>
    match claimPosValue lenOk itemCount (acc.map (fun p => p.1)) pos with
    | some p => claimPositionsAux lenOk itemCount (acc ++ [p]) rest
    | none => claimPositionsAux lenOk itemCount acc rest

/-- The claim's position pass, from an empty accumulator. -/
def claimPositions (lenOk : ℕ → Bool) (itemCount : ℕ) (raw : List JVal) :
    List CPos :=
  claimPositionsAux lenOk itemCount [] raw

/-- The per-entry test of the connection pass as the specification words
it: a (length at least 2) array whose two indices coerce to finite numbers
inside `[0, itemCount)` passes through as the pair of those numbers;
everything else is dropped. -/
def claimConnValue (itemCount : ℕ) (conn : JVal) : Option CConn :=
  match conn with
  | .arr l =>
    if 2 ≤ l.length then
      match toNumber (l.getD 0 .undefined), toNumber (l.getD 1 .undefined) with
      | .fin p, .fin q =>
        if 0 ≤ p ∧ p < (itemCount : ℚ) ∧ 0 ≤ q ∧ q < (itemCount : ℚ) then
          some (p, q)
        else none
      | _, _ => none
    else none
  | _ => none

/-! ## Concrete inputs used by counterexamples and witnesses -/

/-- A diagram with three items whose first view places the fractional item
index `1.5`. -/
def fractionalIndexDiagram : JVal :=
  .obj [("t", .str "Demo"),
        ("i", .arr [.arr [.str "A", .str "block"],
                    .arr [.str "B", .str "block"],
                    .arr [.str "C", .str "block"]]),
        ("v", .arr [.arr [.arr [.arr [.num (.fin (3 / 2)), .num (.fin 0),
              .num (.fin 0)]], .arr []]])]

/-- A diagram with one item whose raw icon label is `---`. -/
def tripleDashDiagram : JVal :=
  .obj [("t", .str "x"), ("i", .arr [.arr [.str "A", .str "---"]]),
        ("v", .arr [])]

/-- An existing-icon list with one icon whose `id` is the empty array: the
id is truthy and stringifies to the empty string. -/
def emptyIdIconList : List JVal :=
  [.obj [("id", .arr [])]]

/-- A diagram with a single well-formed item and no views. -/
def singleItemDiagram : JVal :=
  .obj [("i", .arr [.arr [.str "A", .str "block"]])]

/-! ## Character and string lemmas -/

/-- Does a string contain an (ASCII) uppercase letter? -/
def hasUpper (s : String) : Bool :=
  s.data.any (fun c => decide (65 ≤ c.toNat ∧ c.toNat ≤ 90))

theorem isJsSpace_eq_false_of_ge (c : Char) (h : 48 ≤ c.toNat) :
    isJsSpace c = false := by
  simp only [isJsSpace, Bool.or_eq_false_iff, decide_eq_false_iff_not]
  omega

theorem jsLowerChar_not_upper (c : Char) :
    ¬(65 ≤ (jsLowerChar c).toNat ∧ (jsLowerChar c).toNat ≤ 90) := by
  unfold jsLowerChar
  split
  · rename_i h
    obtain ⟨h1, h2⟩ := h
    revert h1 h2
    generalize c.toNat = n
    intro h1 h2
    interval_cases n <;> decide
  · rename_i h
    exact h

theorem jsLowerChar_idem (c : Char) :
    jsLowerChar (jsLowerChar c) = jsLowerChar c := by
  have h := jsLowerChar_not_upper c
  show (if 65 ≤ (jsLowerChar c).toNat ∧ (jsLowerChar c).toNat ≤ 90 then
      Char.ofNat ((jsLowerChar c).toNat + 32) else jsLowerChar c) = jsLowerChar c
  rw [if_neg h]

theorem isJsSpace_jsLowerChar (c : Char) :
    isJsSpace (jsLowerChar c) = isJsSpace c := by
  unfold jsLowerChar
  split
  · rename_i h
    obtain ⟨h1, h2⟩ := h
    rw [isJsSpace_eq_false_of_ge c (by omega)]
    revert h1 h2
    generalize c.toNat = n
    intro h1 h2
    interval_cases n <;> decide
  · rfl

theorem dropWhile_of_head {α : Type} (p : α → Bool) (l : List α)
    (h : ∀ a, l.head? = some a → p a = false) : l.dropWhile p = l := by
  cases l with
  | nil => rfl
  | cons x xs =>
    rw [List.dropWhile_cons, if_neg]
    simp [h x rfl]

theorem head?_dropWhile_false {α : Type} (p : α → Bool) (l : List α) (a : α)
    (h : (l.dropWhile p).head? = some a) : p a = false := by
  have := List.head?_dropWhile_not p l
  rw [h] at this
  simpa using this

theorem jsTrimList_eq_self (cs : List Char)
    (h1 : ∀ a, cs.head? = some a → isJsSpace a = false)
    (h2 : ∀ a, cs.getLast? = some a → isJsSpace a = false) :
    jsTrimList cs = cs := by
  unfold jsTrimList
  rw [dropWhile_of_head _ _ h1, dropWhile_of_head, List.reverse_reverse]
  intro a ha
  rw [List.head?_reverse] at ha
  exact h2 a ha

theorem head?_jsTrimList (cs : List Char) (a : Char)
    (h : (jsTrimList cs).head? = some a) : isJsSpace a = false := by
  unfold jsTrimList at h
  rw [List.head?_reverse] at h
  obtain ⟨pre, hpre⟩ :=
    List.dropWhile_suffix (l := (cs.dropWhile isJsSpace).reverse) isJsSpace
  have h2 : ((cs.dropWhile isJsSpace).reverse).getLast? = some a := by
    rw [← hpre, List.getLast?_append, h]
    rfl
  rw [List.getLast?_reverse] at h2
  exact head?_dropWhile_false _ _ _ h2

theorem getLast?_jsTrimList (cs : List Char) (a : Char)
    (h : (jsTrimList cs).getLast? = some a) : isJsSpace a = false := by
  unfold jsTrimList at h
  rw [List.getLast?_reverse] at h
  exact head?_dropWhile_false _ _ _ h

theorem jsTrimList_idem (cs : List Char) :
    jsTrimList (jsTrimList cs) = jsTrimList cs :=
  jsTrimList_eq_self _ (head?_jsTrimList cs) (getLast?_jsTrimList cs)

theorem jsTrim_idem (s : String) : jsTrim (jsTrim s) = jsTrim s :=
  congrArg String.mk (jsTrimList_idem s.data)

theorem jsTrimList_of_all_nonspace (cs : List Char)
    (h : ∀ a ∈ cs, isJsSpace a = false) : jsTrimList cs = cs := by
  refine jsTrimList_eq_self cs (fun a ha => ?_) (fun a ha => ?_)
  · cases cs with
    | nil => simp at ha
    | cons x xs => exact h a (by simp_all)
  · have : a ∈ cs := by
      cases hne : cs with
      | nil => subst hne; simp at ha
      | cons x xs =>
        subst hne
        rw [List.getLast?_eq_getLast _ (by simp)] at ha
        exact Option.some_injective _ ha ▸ List.getLast_mem _
    exact h a this

theorem jsTrimList_map (f : Char → Char)
    (hf : ∀ c, isJsSpace (f c) = isJsSpace c) (cs : List Char) :
    jsTrimList (cs.map f) = (jsTrimList cs).map f := by
  unfold jsTrimList
  have hdw : ∀ l : List Char,
      (l.map f).dropWhile isJsSpace = (l.dropWhile isJsSpace).map f := by
    intro l
    rw [List.dropWhile_map]
    have hpf : (isJsSpace ∘ f) = isJsSpace := funext hf
    rw [hpf]
  rw [hdw, ← List.map_reverse, hdw, List.map_reverse]

theorem map_jsLowerChar_fixed (cs : List Char) :
    (cs.map jsLowerChar).map jsLowerChar = cs.map jsLowerChar := by
  rw [List.map_map]
  exact List.map_congr_left (fun a _ => jsLowerChar_idem a)

theorem jsToLower_of_jsToLower_data (cs : List Char) :
    jsToLower (String.mk (cs.map jsLowerChar)) = String.mk (cs.map jsLowerChar) :=
  congrArg String.mk (map_jsLowerChar_fixed cs)

theorem rawIcon_trim_fixed (s : String) :
    jsTrim (jsToLower (jsTrim s)) = jsToLower (jsTrim s) := by
  unfold jsToLower jsTrim
  refine congrArg String.mk ?_
  show jsTrimList ((jsTrimList s.data).map jsLowerChar) = _
  rw [jsTrimList_map jsLowerChar isJsSpace_jsLowerChar, jsTrimList_idem]

theorem rawIcon_lower_fixed (s : String) :
    jsToLower (jsToLower (jsTrim s)) = jsToLower (jsTrim s) := by
  unfold jsToLower jsTrim
  exact congrArg String.mk (map_jsLowerChar_fixed (jsTrimList s.data))

theorem rawIcon_fixed (s : String) :
    jsToLower (jsTrim (jsToLower (jsTrim s))) = jsToLower (jsTrim s) := by
  rw [rawIcon_trim_fixed, rawIcon_lower_fixed]

theorem mem_of_map_jsLowerChar_self (cs : List Char)
    (c : Char) (h : c ∈ cs.map jsLowerChar) : jsLowerChar c = c := by
  rw [List.mem_map] at h
  obtain ⟨b, _, hb⟩ := h
  rw [← hb]
  exact jsLowerChar_idem b

theorem not_upper_of_lower_fixed (c : Char) (h : jsLowerChar c = c) :
    ¬(65 ≤ c.toNat ∧ c.toNat ≤ 90) := h ▸ jsLowerChar_not_upper c

/-! ## Lemmas about `natToString` -/

theorem natDigitsAux_digit (fuel n : ℕ) (c : Char) (h : c ∈ natDigitsAux fuel n) :
    48 ≤ c.toNat ∧ c.toNat ≤ 57 := by
  induction fuel generalizing n with
  | zero => simp [natDigitsAux] at h
  | succ fuel ih =>
    unfold natDigitsAux at h
    split at h
    · simp at h
    · rw [List.mem_append] at h
      rcases h with h | h
      · exact ih _ h
      · have hm : n % 10 < 10 := Nat.mod_lt _ (by norm_num)
        simp only [List.mem_singleton] at h
        subst h
        revert hm
        generalize n % 10 = m
        intro hm
        interval_cases m <;> refine ⟨by decide, by decide⟩

theorem natToString_digit (n : ℕ) (c : Char) (h : c ∈ (natToString n).data) :
    48 ≤ c.toNat ∧ c.toNat ≤ 57 := by
  unfold natToString at h
  split at h
  · simp only [List.mem_singleton] at h
    subst h
    exact ⟨by decide, by decide⟩
  · exact natDigitsAux_digit _ _ _ h

theorem natToString_ne_nil (n : ℕ) : (natToString n).data ≠ [] := by
  unfold natToString
  split
  · decide
  · rename_i hn
    show (natDigitsAux (n + 1) n) ≠ []
    unfold natDigitsAux
    rw [if_neg hn]
    simp

theorem jsTrim_item_default (k : ℕ) :
    jsTrim ("Item " ++ natToString k) = "Item " ++ natToString k := by
  refine congrArg String.mk ?_
  show jsTrimList ("Item " ++ natToString k).data = _
  rw [String.data_append]
  refine jsTrimList_eq_self _ (fun a ha => ?_) (fun a ha => ?_)
  · simp only [show ("Item ").data = 'I' :: "tem ".data from rfl] at ha
    rw [List.cons_append, List.head?_cons] at ha
    cases ha
    decide
  · rw [List.getLast?_append] at ha
    cases hlast : (natToString k).data.getLast? with
    | none =>
      exfalso
      exact natToString_ne_nil k (List.getLast?_eq_none_iff.mp hlast)
    | some b =>
      rw [hlast, Option.or_some] at ha
      injection ha with hba
      subst hba
      have hb : b ∈ (natToString k).data := by
        have hne := natToString_ne_nil k
        rw [List.getLast?_eq_getLast _ hne] at hlast
        exact Option.some_injective _ hlast ▸ List.getLast_mem hne
      exact isJsSpace_eq_false_of_ge _ (natToString_digit k b hb).1

theorem item_default_ne_empty (k : ℕ) : ("Item " ++ natToString k) ≠ "" := by
  intro h
  have : ("Item " ++ natToString k).data = [] := congrArg String.data h
  rw [String.data_append] at this
  simp at this

/-! ## Icon resolver lemmas -/

theorem mem_buildIconIdSet_of_mem (icons : List JVal) (x : String)
    (h : x ∈ AVAILABLE_ICON_IDS) : x ∈ buildIconIdSet icons := by
  suffices H : ∀ (l : List JVal) (init : List String), x ∈ init →
      x ∈ l.foldl (fun ids icon =>
        if truthy (jget icon "id") then setAdd ids (jsString (jget icon "id"))
        else ids) init by
    exact H icons _ h
  intro l
  induction l with
  | nil => intro init hi; exact hi
  | cons y ys ih =>
    intro init hi
    rw [List.foldl_cons]
    apply ih
    split
    · unfold setAdd
      split
      · exact hi
      · exact List.mem_append_left _ hi
    · exact hi

theorem block_mem_buildIconIdSet (icons : List JVal) :
    "block" ∈ buildIconIdSet icons :=
  mem_buildIconIdSet_of_mem icons _ (by decide)

theorem legacy_values_fixed : ∀ pr ∈ LEGACY_ICON_MAP,
    jsToLower (jsTrim pr.2) = pr.2 ∧ hasUpper pr.2 = false := by decide

theorem legacyLookup_value_props (k m : String) (h : legacyLookup k = some m) :
    jsToLower (jsTrim m) = m ∧ hasUpper m = false := by
  unfold legacyLookup at h
  cases hf : LEGACY_ICON_MAP.find? (fun p => p.1 == k) with
  | none => rw [hf] at h; simp at h
  | some pr =>
    rw [hf] at h
    have h2 : pr.2 = m := by
      simpa using h
    have hmem := List.mem_of_find?_eq_some hf
    exact h2 ▸ legacy_values_fixed pr hmem

theorem isJsSpace_underToHyphen (c : Char) :
    isJsSpace (underToHyphen c) = isJsSpace c := by
  unfold underToHyphen
  split
  · rename_i h
    subst h
    decide
  · rfl

theorem map_fixed_of_pointwise (f : Char → Char) (l : List Char)
    (h : ∀ c ∈ l, f c = c) : l.map f = l := by
  conv_rhs => rw [← List.map_id l]
  exact List.map_congr_left h

theorem not_upper_bool_of_lower_fixed (c : Char) (h : jsLowerChar c = c) :
    decide (65 ≤ c.toNat ∧ c.toNat ≤ 90) = false := by
  simpa using not_upper_of_lower_fixed c h

theorem normalizeIconIdFallback_props (raw : String) (ids : List String)
    (htrim : jsTrim raw = raw) (hlow : ∀ c ∈ raw.data, jsLowerChar c = c) :
    (normalizeIconIdFallback raw ids ∈ ids ∨
      normalizeIconIdFallback raw ids = "block") ∧
    jsToLower (jsTrim (normalizeIconIdFallback raw ids)) =
      normalizeIconIdFallback raw ids ∧
    hasUpper (normalizeIconIdFallback raw ids) = false := by
  have htrimdata : jsTrimList raw.data = raw.data := congrArg String.data htrim
  have hfixlow : ∀ c ∈ raw.data.map underToHyphen, jsLowerChar c = c := by
    intro c hc
    rw [List.mem_map] at hc
    obtain ⟨b, hb, rfl⟩ := hc
    unfold underToHyphen
    split
    · decide
    · exact hlow b hb
  have hF1 : jsTrim (String.mk (raw.data.map underToHyphen)) =
      String.mk (raw.data.map underToHyphen) := by
    show String.mk (jsTrimList (raw.data.map underToHyphen)) = _
    rw [jsTrimList_map underToHyphen isJsSpace_underToHyphen, htrimdata]
  have hF2 : jsToLower (String.mk (raw.data.map underToHyphen)) =
      String.mk (raw.data.map underToHyphen) := by
    show String.mk ((raw.data.map underToHyphen).map jsLowerChar) = _
    rw [map_fixed_of_pointwise jsLowerChar _ hfixlow]
  have hF3 : hasUpper (String.mk (raw.data.map underToHyphen)) = false := by
    rw [hasUpper, List.any_eq_false]
    intro c hc
    simpa using not_upper_of_lower_fixed c (hfixlow c hc)
  have hcclow : ∀ c ∈ raw.data.filter (fun c => !isSepChar c),
      jsLowerChar c = c := by
    intro c hc
    exact hlow c (List.mem_filter.mp hc).1
  have hG1 : jsTrim (String.mk (raw.data.filter (fun c => !isSepChar c))) =
      String.mk (raw.data.filter (fun c => !isSepChar c)) := by
    show String.mk (jsTrimList (raw.data.filter (fun c => !isSepChar c))) = _
    rw [jsTrimList_of_all_nonspace]
    intro a ha
    have hsep : isSepChar a = false := by
      have := (List.mem_filter.mp ha).2
      simpa using this
    unfold isSepChar at hsep
    simp only [Bool.or_eq_false_iff] at hsep
    exact hsep.1.1
  have hG2 : jsToLower (String.mk (raw.data.filter (fun c => !isSepChar c))) =
      String.mk (raw.data.filter (fun c => !isSepChar c)) := by
    show String.mk ((raw.data.filter (fun c => !isSepChar c)).map jsLowerChar) = _
    rw [map_fixed_of_pointwise jsLowerChar _ hcclow]
  have hG3 : hasUpper (String.mk (raw.data.filter (fun c => !isSepChar c))) =
      false := by
    rw [hasUpper, List.any_eq_false]
    intro c hc
    simpa using not_upper_of_lower_fixed c (hcclow c hc)
  simp only [normalizeIconIdFallback]
  split
  · rename_i hmem
    exact ⟨Or.inl hmem, by rw [hF1, hF2], hF3⟩
  · split
    · rename_i hmem
      exact ⟨Or.inl hmem, by rw [hG1, hG2], hG3⟩
    · refine ⟨Or.inr rfl, by decide, by decide⟩

theorem orElse_eq_some {α : Type} (a b : Option α) (m : α)
    (h : a.orElse (fun _ => b) = some m) : a = some m ∨ b = some m := by
  cases a with
  | none => right; simpa using h
  | some x => left; simpa using h

theorem normalizeIconId_props (s : String) (ids : List String) :
    (normalizeIconId s ids ∈ ids ∨ normalizeIconId s ids = "block") ∧
    jsToLower (jsTrim (normalizeIconId s ids)) = normalizeIconId s ids ∧
    hasUpper (normalizeIconId s ids) = false := by
  have htrim : jsTrim (jsToLower (jsTrim s)) = jsToLower (jsTrim s) :=
    rawIcon_trim_fixed s
  have hlowchars : ∀ c ∈ (jsToLower (jsTrim s)).data, jsLowerChar c = c :=
    fun c hc => mem_of_map_jsLowerChar_self _ c hc
  have hlower : jsToLower (jsToLower (jsTrim s)) = jsToLower (jsTrim s) :=
    rawIcon_lower_fixed s
  have hrawfix : jsToLower (jsTrim (jsToLower (jsTrim s))) = jsToLower (jsTrim s) := by
    rw [htrim, hlower]
  have hrawup : hasUpper (jsToLower (jsTrim s)) = false := by
    rw [hasUpper, List.any_eq_false]
    intro c hc
    simpa using not_upper_of_lower_fixed c (hlowchars c hc)
  simp only [normalizeIconId, show toSafeString (.str s) = s from rfl]
  split
  · exact ⟨Or.inr rfl, by decide, by decide⟩
  · split
    · rename_i hne hmem
      exact ⟨Or.inl hmem, hrawfix, hrawup⟩
    · split
      · rename_i hne hnmem m hm
        split
        · rename_i hmmem
          obtain ⟨k, hk⟩ : ∃ k, legacyLookup k = some m := by
            rcases orElse_eq_some _ _ _ hm with h | h
            · exact ⟨_, h⟩
            · exact ⟨_, h⟩
          have hprops := legacyLookup_value_props k m hk
          exact ⟨Or.inl hmmem, hprops.1, hprops.2⟩
        · exact normalizeIconIdFallback_props _ ids htrim hlowchars
      · exact normalizeIconIdFallback_props _ ids htrim hlowchars

theorem normalizeIconId_stable (s : String) (ids : List String)
    (hb : "block" ∈ ids) (he : "" ∉ ids) :
    normalizeIconId (normalizeIconId s ids) ids = normalizeIconId s ids := by
  obtain ⟨hmem, hfix, -⟩ := normalizeIconId_props s ids
  set v := normalizeIconId s ids with hvdef
  simp only [normalizeIconId, show toSafeString (.str v) = v from rfl]
  rw [hfix]
  rcases hmem with hv | hv
  · have hne : v ≠ "" := fun h => he (h ▸ hv)
    rw [if_neg hne, if_pos hv]
  · rw [hv]
    rw [if_neg (by decide : ¬("block" : String) = ""), if_pos hb]

/-! ## View normalizer lemmas -/

theorem normPositions_range (itemCount : ℕ) (raw : List JVal) :
    ∀ (used : List ℚ) (p : CPos), p ∈ normPositions itemCount used raw →
      0 ≤ p.1 ∧ p.1 < (itemCount : ℚ) ∧ p.1 ∉ used := by
  induction raw with
  | nil =>
    intro used p hp
    simp [normPositions] at hp
  | cons pos rest ih =>
    intro used p hp
    cases pos with
    | arr l =>
      simp only [normPositions] at hp
      split at hp
      · exact ih used p hp
      · split at hp
        · rename_i itemIndex x y
          split at hp
          · exact ih used p hp
          · rename_i hcond
            push_neg at hcond
            obtain ⟨h1, h2, h3⟩ := hcond
            rcases List.mem_cons.mp hp with rfl | hp
            · exact ⟨h1, h2, h3⟩
            · have hr := ih _ p hp
              exact ⟨hr.1, hr.2.1, fun hm => hr.2.2 (List.mem_cons_of_mem _ hm)⟩
        · exact ih used p hp
    | str s => simp only [normPositions] at hp; exact ih used p hp
    | num n => simp only [normPositions] at hp; exact ih used p hp
    | bool b => simp only [normPositions] at hp; exact ih used p hp
    | null => simp only [normPositions] at hp; exact ih used p hp
    | undefined => simp only [normPositions] at hp; exact ih used p hp
    | obj fields => simp only [normPositions] at hp; exact ih used p hp

theorem normPositionsUsed_mem (itemCount : ℕ) (raw : List JVal) :
    ∀ (used : List ℚ) (q : ℚ),
      q ∈ normPositionsUsed itemCount used raw ↔
        q ∈ used ∨ q ∈ (normPositions itemCount used raw).map (fun p => p.1) := by
  induction raw with
  | nil =>
    intro used q
    simp [normPositions, normPositionsUsed]
  | cons pos rest ih =>
    intro used q
    cases pos with
    | arr l =>
      simp only [normPositions, normPositionsUsed]
      split
      · exact ih used q
      · split
        · rename_i itemIndex x y h0 h1 h2
          split
          · exact ih used q
          · rw [ih (itemIndex :: used) q]
            simp only [List.map_cons, List.mem_cons]
            constructor
            · rintro (⟨rfl | hq⟩ | hq)
              · exact Or.inr (Or.inl rfl)
              · exact Or.inl hq
              · exact Or.inr (Or.inr hq)
            · rintro (hq | (rfl | hq))
              · exact Or.inl (Or.inr hq)
              · exact Or.inl (Or.inl rfl)
              · exact Or.inr hq
        · exact ih used q
    | str s => simp only [normPositions, normPositionsUsed]; exact ih used q
    | num n => simp only [normPositions, normPositionsUsed]; exact ih used q
    | bool b => simp only [normPositions, normPositionsUsed]; exact ih used q
    | null => simp only [normPositions, normPositionsUsed]; exact ih used q
    | undefined => simp only [normPositions, normPositionsUsed]; exact ih used q
    | obj fields => simp only [normPositions, normPositionsUsed]; exact ih used q

theorem normPositions_nodup (itemCount : ℕ) (raw : List JVal) :
    ∀ (used : List ℚ),
      ((normPositions itemCount used raw).map (fun p => p.1)).Nodup := by
  induction raw with
  | nil =>
    intro used
    simp [normPositions]
  | cons pos rest ih =>
    intro used
    cases pos with
    | arr l =>
      simp only [normPositions]
      split
      · exact ih used
      · split
        · rename_i itemIndex x y h0 h1 h2
          split
          · exact ih used
          · simp only [List.map_cons, List.nodup_cons]
            refine ⟨?_, ih (itemIndex :: used)⟩
            intro hmem
            rw [List.mem_map] at hmem
            obtain ⟨p, hp, hp1⟩ := hmem
            have := (normPositions_range itemCount rest (itemIndex :: used) p hp).2.2
            exact this (hp1 ▸ List.mem_cons_self _ _)
        · exact ih used
    | str s => simp only [normPositions]; exact ih used
    | num n => simp only [normPositions]; exact ih used
    | bool b => simp only [normPositions]; exact ih used
    | null => simp only [normPositions]; exact ih used
    | undefined => simp only [normPositions]; exact ih used
    | obj fields => simp only [normPositions]; exact ih used

theorem jsRound_intCast (x : ℤ) : jsRound (x : ℚ) = x := by
  unfold jsRound
  rw [add_comm, Int.floor_add_int]
  norm_num

theorem normPositions_keep_all (itemCount : ℕ) (lst : List CPos) :
    ∀ (used : List ℚ),
      (∀ p ∈ lst, 0 ≤ p.1 ∧ p.1 < (itemCount : ℚ) ∧ p.1 ∉ used) →
      (lst.map (fun p => p.1)).Nodup →
      normPositions itemCount used (lst.map posToJVal) = lst ∧
      (∀ q : ℚ, q ∈ normPositionsUsed itemCount used (lst.map posToJVal) ↔
        q ∈ used ∨ q ∈ lst.map (fun p => p.1)) := by
  induction lst with
  | nil =>
    intro used _ _
    refine ⟨rfl, fun q => ?_⟩
    simp [normPositionsUsed]
  | cons p rest ih =>
    intro used hrange hnodup
    obtain ⟨idx, x, y⟩ := p
    have hp := hrange _ (List.mem_cons_self _ _)
    simp only [List.map_cons, List.nodup_cons] at hnodup
    have hcond : ¬(idx < 0 ∨ (itemCount : ℚ) ≤ idx ∨ idx ∈ used) := by
      push_neg
      exact ⟨hp.1, hp.2.1, hp.2.2⟩
    have hrest : ∀ q ∈ rest, 0 ≤ q.1 ∧ q.1 < (itemCount : ℚ) ∧ q.1 ∉ idx :: used := by
      intro q hq
      have h1 := hrange q (List.mem_cons_of_mem _ hq)
      refine ⟨h1.1, h1.2.1, ?_⟩
      intro hm
      rcases List.mem_cons.mp hm with hqi | hm
      · exact hnodup.1 (hqi ▸ List.mem_map_of_mem _ hq)
      · exact h1.2.2 hm
    have hih := ih (idx :: used) hrest hnodup.2
    constructor
    · show normPositions itemCount used (posToJVal (idx, x, y) :: rest.map posToJVal) = _
      simp only [posToJVal, normPositions]
      rw [if_neg (by norm_num)]
      simp only [List.getD_cons_zero, List.getD_cons_succ, toNumber]
      rw [if_neg hcond, hih.1]
      simp [jsRound_intCast]
    · intro q
      show q ∈ normPositionsUsed itemCount used
        (posToJVal (idx, x, y) :: rest.map posToJVal) ↔ _
      simp only [posToJVal, normPositionsUsed]
      rw [if_neg (by norm_num)]
      simp only [List.getD_cons_zero, List.getD_cons_succ, toNumber]
      rw [if_neg hcond, hih.2 q]
      simp only [List.map_cons, List.mem_cons]
      constructor
      · rintro (⟨rfl | hq⟩ | hq)
        · exact Or.inr (Or.inl rfl)
        · exact Or.inl hq
        · exact Or.inr (Or.inr hq)
      · rintro (hq | (rfl | hq))
        · exact Or.inl (Or.inr hq)
        · exact Or.inl (Or.inl rfl)
        · exact Or.inr hq

theorem autoLayoutGo_mem (columns : ℕ) (used : List ℚ) :
    ∀ (r index placed : ℕ) (p : CPos), p ∈ autoLayoutGo columns used r index placed →
      ∃ i : ℕ, p.1 = (i : ℚ) ∧ index ≤ i ∧ i < index + r ∧ (i : ℚ) ∉ used := by
  intro r
  induction r with
  | zero =>
    intro index placed p hp
    simp [autoLayoutGo] at hp
  | succ r ih =>
    intro index placed p hp
    simp only [autoLayoutGo] at hp
    split at hp
    · obtain ⟨i, h1, h2, h3, h4⟩ := ih (index + 1) placed p hp
      exact ⟨i, h1, by omega, by omega, h4⟩
    · rcases List.mem_cons.mp hp with rfl | hp
      · rename_i hnm
        exact ⟨index, rfl, le_refl _, by omega, hnm⟩
      · obtain ⟨i, h1, h2, h3, h4⟩ := ih (index + 1) (placed + 1) p hp
        exact ⟨i, h1, by omega, by omega, h4⟩

theorem autoLayoutGo_cover (columns : ℕ) (used : List ℚ) :
    ∀ (r index placed : ℕ) (i : ℕ), index ≤ i → i < index + r →
      (i : ℚ) ∈ used ∨
        (i : ℚ) ∈ (autoLayoutGo columns used r index placed).map (fun p => p.1) := by
  intro r
  induction r with
  | zero =>
    intro index placed i h1 h2
    omega
  | succ r ih =>
    intro index placed i h1 h2
    simp only [autoLayoutGo]
    split
    · rename_i hm
      rcases Nat.eq_or_lt_of_le h1 with rfl | hlt
      · exact Or.inl hm
      · rcases ih (index + 1) placed i hlt (by omega) with h | h
        · exact Or.inl h
        · exact Or.inr h
    · rcases Nat.eq_or_lt_of_le h1 with rfl | hlt
      · exact Or.inr (by simp)
      · rcases ih (index + 1) (placed + 1) i hlt (by omega) with h | h
        · exact Or.inl h
        · right
          simp only [List.map_cons, List.mem_cons]
          exact Or.inr h

theorem autoLayoutGo_nil_of_covered (columns : ℕ) (used : List ℚ) :
    ∀ (r index placed : ℕ),
      (∀ i : ℕ, index ≤ i → i < index + r → (i : ℚ) ∈ used) →
      autoLayoutGo columns used r index placed = [] := by
  intro r
  induction r with
  | zero =>
    intro index placed _
    rfl
  | succ r ih =>
    intro index placed h
    simp only [autoLayoutGo]
    rw [if_pos (h index (le_refl _) (by omega))]
    exact ih (index + 1) placed (fun i h1 h2 => h i (by omega) (by omega))

theorem autoLayoutGo_nodup (columns : ℕ) (used : List ℚ) :
    ∀ (r index placed : ℕ),
      ((autoLayoutGo columns used r index placed).map (fun p => p.1)).Nodup := by
  intro r
  induction r with
  | zero =>
    intro index placed
    simp [autoLayoutGo]
  | succ r ih =>
    intro index placed
    simp only [autoLayoutGo]
    split
    · exact ih (index + 1) placed
    · simp only [List.map_cons, List.nodup_cons]
      refine ⟨?_, ih (index + 1) (placed + 1)⟩
      intro hmem
      rw [List.mem_map] at hmem
      obtain ⟨p, hp, hp1⟩ := hmem
      obtain ⟨i, h1, h2, h3, h4⟩ := autoLayoutGo_mem columns used r (index + 1) (placed + 1) p hp
      rw [hp1] at h1
      have : index = i := by exact_mod_cast h1
      omega

theorem normConnections_range (itemCount : ℕ) (raw : List JVal) :
    ∀ c ∈ normConnections itemCount raw,
      0 ≤ c.1 ∧ c.1 < (itemCount : ℚ) ∧ 0 ≤ c.2 ∧ c.2 < (itemCount : ℚ) := by
  induction raw with
  | nil =>
    intro c hc
    simp [normConnections] at hc
  | cons conn rest ih =>
    intro c hc
    cases conn with
    | arr l =>
      simp only [normConnections] at hc
      split at hc
      · exact ih c hc
      · split at hc
        · split at hc
          · exact ih c hc
          · rename_i hcond
            push_neg at hcond
            rcases List.mem_cons.mp hc with rfl | hc
            · exact ⟨hcond.1, hcond.2.1, hcond.2.2.1, hcond.2.2.2⟩
            · exact ih c hc
        · exact ih c hc
    | str s => simp only [normConnections] at hc; exact ih c hc
    | num n => simp only [normConnections] at hc; exact ih c hc
    | bool b => simp only [normConnections] at hc; exact ih c hc
    | null => simp only [normConnections] at hc; exact ih c hc
    | undefined => simp only [normConnections] at hc; exact ih c hc
    | obj fields => simp only [normConnections] at hc; exact ih c hc

theorem normConnections_eq_filterMap (itemCount : ℕ) (raw : List JVal) :
    normConnections itemCount raw = raw.filterMap (claimConnValue itemCount) := by
  induction raw with
  | nil => rfl
  | cons conn rest ih =>
    cases conn with
    | arr l =>
      simp only [normConnections, claimConnValue, List.filterMap_cons]
      split
      · rename_i hlen
        rw [if_neg (by omega)]
        exact ih
      · rename_i hlen
        rw [if_pos (by omega)]
        split
        · rename_i p q h0 h1
          split
          · rename_i hcond
            rw [if_neg ?hc]
            · exact ih
            case hc =>
              push_neg
              intro a b cc
              rcases hcond with h | h | h | h
              · exact absurd a (not_le.mpr h)
              · exact absurd b (not_lt.mpr h)
              · exact absurd cc (not_le.mpr h)
              · exact h
          · rename_i hcond
            push_neg at hcond
            rw [if_pos ⟨hcond.1, hcond.2.1, hcond.2.2.1, hcond.2.2.2⟩]
            show (p, q) :: normConnections itemCount rest =
              (p, q) :: List.filterMap (claimConnValue itemCount) rest
            rw [ih]
        · rename_i n0 n1 hnotboth
          cases h0 : toNumber (l.getD 0 JVal.undefined) with
          | fin p0 =>
            cases h1 : toNumber (l.getD 1 JVal.undefined) with
            | fin q0 => exact (hnotboth p0 q0 h0 h1).elim
            | nan => simp only [h0, h1]; exact ih
            | inf b1 => simp only [h0, h1]; exact ih
          | nan =>
            cases h1 : toNumber (l.getD 1 JVal.undefined) <;>
              (simp only [h0, h1]; exact ih)
          | inf b0 =>
            cases h1 : toNumber (l.getD 1 JVal.undefined) <;>
              (simp only [h0, h1]; exact ih)
    | str s => simp only [normConnections, claimConnValue, List.filterMap_cons]; exact ih
    | num n => simp only [normConnections, claimConnValue, List.filterMap_cons]; exact ih
    | bool b => simp only [normConnections, claimConnValue, List.filterMap_cons]; exact ih
    | null => simp only [normConnections, claimConnValue, List.filterMap_cons]; exact ih
    | undefined => simp only [normConnections, claimConnValue, List.filterMap_cons]; exact ih
    | obj fields => simp only [normConnections, claimConnValue, List.filterMap_cons]; exact ih

theorem normConnections_keep_all (itemCount : ℕ) (lst : List CConn)
    (h : ∀ c ∈ lst,
      0 ≤ c.1 ∧ c.1 < (itemCount : ℚ) ∧ 0 ≤ c.2 ∧ c.2 < (itemCount : ℚ)) :
    normConnections itemCount (lst.map connToJVal) = lst := by
  induction lst with
  | nil => rfl
  | cons c rest ih =>
    obtain ⟨p, q⟩ := c
    have hc := h _ (List.mem_cons_self _ _)
    have hcond : ¬(p < 0 ∨ (itemCount : ℚ) ≤ p ∨ q < 0 ∨ (itemCount : ℚ) ≤ q) := by
      push_neg
      exact ⟨hc.1, hc.2.1, hc.2.2.1, hc.2.2.2⟩
    show normConnections itemCount (connToJVal (p, q) :: rest.map connToJVal) = _
    simp only [connToJVal, normConnections]
    rw [if_neg (by norm_num)]
    simp only [List.getD_cons_zero, List.getD_cons_succ, toNumber]
    rw [if_neg hcond, ih (fun c hc => h c (List.mem_cons_of_mem _ hc))]

theorem normalizeView_inv (view : JVal) (itemCount : ℕ) (b : Bool) :
    (∀ p ∈ (normalizeView view itemCount b).1,
      0 ≤ p.1 ∧ p.1 < (itemCount : ℚ)) ∧
    ((normalizeView view itemCount b).1.map (fun p => p.1)).Nodup ∧
    (b = true → ∀ i : ℕ, i < itemCount →
      (i : ℚ) ∈ (normalizeView view itemCount b).1.map (fun p => p.1)) ∧
    (∀ c ∈ (normalizeView view itemCount b).2,
      0 ≤ c.1 ∧ c.1 < (itemCount : ℚ) ∧ 0 ≤ c.2 ∧ c.2 < (itemCount : ℚ)) := by
  simp only [normalizeView]
  set rawPositions := asArray ((asArray view).getD 0 .undefined) with hrp
  set rawConnections := asArray ((asArray view).getD 1 .undefined) with hrc
  set explicitPositions := normPositions itemCount [] rawPositions with hep
  set usedIndices := normPositionsUsed itemCount [] rawPositions with hui
  have hused : ∀ q : ℚ, q ∈ usedIndices ↔
      q ∈ explicitPositions.map (fun p => p.1) := by
    intro q
    rw [hui, normPositionsUsed_mem]
    simp
  have hexp_range : ∀ p ∈ explicitPositions, 0 ≤ p.1 ∧ p.1 < (itemCount : ℚ) :=
    fun p hp =>
      ⟨(normPositions_range itemCount rawPositions [] p hp).1,
       (normPositions_range itemCount rawPositions [] p hp).2.1⟩
  have hexp_nodup : (explicitPositions.map (fun p => p.1)).Nodup :=
    normPositions_nodup itemCount rawPositions []
  have hauto_range : ∀ p ∈ autoLayoutPositions itemCount usedIndices,
      (∃ i : ℕ, p.1 = (i : ℚ) ∧ i < itemCount) ∧ p.1 ∉ usedIndices := by
    intro p hp
    unfold autoLayoutPositions at hp
    split at hp
    · simp at hp
    · obtain ⟨i, h1, h2, h3, h4⟩ :=
        autoLayoutGo_mem _ usedIndices itemCount 0 0 p hp
      exact ⟨⟨i, h1, by omega⟩, h1 ▸ h4⟩
  refine ⟨?_, ?_, ?_, ?_⟩
  · intro p hp
    split at hp
    · rw [List.mem_append] at hp
      rcases hp with hp | hp
      · exact hexp_range p hp
      · obtain ⟨⟨i, h1, h2⟩, _⟩ := hauto_range p hp
        rw [h1]
        exact ⟨by positivity, by exact_mod_cast h2⟩
    · exact hexp_range p hp
  · split
    · rw [List.map_append]
      refine List.Nodup.append hexp_nodup ?_ ?_
      · unfold autoLayoutPositions
        split
        · simp
        · exact autoLayoutGo_nodup _ _ _ _ _
      · intro q hq1 hq2
        rw [List.mem_map] at hq2
        obtain ⟨p, hp, hp1⟩ := hq2
        exact (hauto_range p hp).2 (hp1 ▸ (hused q).mpr hq1)
    · exact hexp_nodup
  · intro hb i hi
    subst hb
    simp only [if_true]
    rw [List.map_append, List.mem_append]
    have hne : itemCount ≠ 0 := by omega
    have := autoLayoutGo_cover (max 4 (ceilSqrt itemCount)) usedIndices
      itemCount 0 0 i (by omega) (by omega)
    rcases this with h | h
    · exact Or.inl ((hused _).mp h)
    · right
      unfold autoLayoutPositions
      rw [if_neg hne]
      exact h
  · intro c hc
    exact normConnections_range itemCount rawConnections c hc

theorem normalizeView_stable (V : CView) (itemCount : ℕ) (b : Bool)
    (hrange : ∀ p ∈ V.1, 0 ≤ p.1 ∧ p.1 < (itemCount : ℚ))
    (hnodup : (V.1.map (fun p => p.1)).Nodup)
    (hcover : b = true → ∀ i : ℕ, i < itemCount →
      (i : ℚ) ∈ V.1.map (fun p => p.1))
    (hconn : ∀ c ∈ V.2,
      0 ≤ c.1 ∧ c.1 < (itemCount : ℚ) ∧ 0 ≤ c.2 ∧ c.2 < (itemCount : ℚ)) :
    normalizeView (viewToJVal V) itemCount b = V := by
  obtain ⟨P, C⟩ := V
  have hkeep := normPositions_keep_all itemCount P []
    (fun p hp => ⟨(hrange p hp).1, (hrange p hp).2, by simp⟩) hnodup
  simp only [normalizeView, viewToJVal, asArray, List.getD_cons_zero,
    List.getD_cons_succ]
  rw [hkeep.1, normConnections_keep_all itemCount C hconn]
  cases b with
  | false => rfl
  | true =>
    simp only [if_true]
    have hauto : autoLayoutPositions itemCount
        (normPositionsUsed itemCount [] (P.map posToJVal)) = [] := by
      unfold autoLayoutPositions
      split
      · rfl
      · apply autoLayoutGo_nil_of_covered
        intro i h1 h2
        rw [hkeep.2]
        exact Or.inr (hcover rfl i (by omega))
    rw [hauto, List.append_nil]

/-! ## Item and diagram lemmas -/

theorem normalizeItemsFrom_length (iconIds : List String) (l : List JVal) :
    ∀ start : ℕ, (normalizeItemsFrom iconIds start l).length = l.length := by
  induction l with
  | nil => intro start; rfl
  | cons item rest ih =>
    intro start
    simp only [normalizeItemsFrom, List.length_cons, ih]

theorem normalizeItemsFrom_getElem (iconIds : List String) (l : List JVal) :
    ∀ (start j : ℕ),
      (normalizeItemsFrom iconIds start l)[j]? =
        (l[j]?).map (fun item => normalizeItem iconIds (start + j) item) := by
  induction l with
  | nil => intro start j; simp [normalizeItemsFrom]
  | cons item rest ih =>
    intro start j
    cases j with
    | zero => simp [normalizeItemsFrom]
    | succ j =>
      simp only [normalizeItemsFrom, List.getElem?_cons_succ, ih (start + 1) j]
      have : start + 1 + j = start + (j + 1) := by omega
      rw [this]

theorem normalizeItem_name_fixed (iconIds : List String) (index : ℕ)
    (item : JVal) :
    jsTrim (normalizeItem iconIds index item).1 = (normalizeItem iconIds index item).1 ∧
    (normalizeItem iconIds index item).1 ≠ "" := by
  simp only [normalizeItem]
  split
  · exact ⟨jsTrim_item_default _, item_default_ne_empty _⟩
  · rename_i hne
    exact ⟨jsTrim_idem _, hne⟩

theorem normalizeItem_stable (iconIds : List String) (index : ℕ) (item : JVal)
    (hb : "block" ∈ iconIds) (he : "" ∉ iconIds) :
    normalizeItem iconIds index (itemToJVal (normalizeItem iconIds index item)) =
      normalizeItem iconIds index item := by
  obtain ⟨hfix, hne⟩ := normalizeItem_name_fixed iconIds index item
  set it := normalizeItem iconIds index item with hit
  obtain ⟨n, ic, d⟩ := it
  have hic : normalizeIconId ic iconIds = ic := by
    have : ic = normalizeIconId
        (toSafeString ((asArray item).getD 1 .undefined)) iconIds := by
      have := congrArg (fun x => x.2.1) hit
      simpa [normalizeItem] using this
    rw [this]
    exact normalizeIconId_stable _ iconIds hb he
  show normalizeItem iconIds index (itemToJVal (n, ic, d)) = (n, ic, d)
  simp only [itemToJVal, normalizeItem, asArray, List.getD_cons_zero,
    List.getD_cons_succ, toSafeString]
  rw [hfix, if_neg hne, hic]

theorem normalizeItemsFrom_stable (iconIds : List String) (l : List JVal)
    (hb : "block" ∈ iconIds) (he : "" ∉ iconIds) :
    ∀ start : ℕ,
      normalizeItemsFrom iconIds start
        ((normalizeItemsFrom iconIds start l).map itemToJVal) =
      normalizeItemsFrom iconIds start l := by
  induction l with
  | nil => intro start; rfl
  | cons item rest ih =>
    intro start
    simp only [normalizeItemsFrom, List.map_cons]
    rw [normalizeItem_stable iconIds start item hb he, ih (start + 1)]

theorem normalizeViewsFrom_length (itemCount : ℕ) (l : List JVal) :
    ∀ start : ℕ, (normalizeViewsFrom itemCount start l).length = l.length := by
  induction l with
  | nil => intro start; rfl
  | cons v rest ih =>
    intro start
    simp only [normalizeViewsFrom, List.length_cons, ih]

theorem normalizeViewsFrom_mem (itemCount : ℕ) (l : List JVal) :
    ∀ (start : ℕ) (view : CView), view ∈ normalizeViewsFrom itemCount start l →
      ∃ (v : JVal) (b : Bool), view = normalizeView v itemCount b := by
  induction l with
  | nil =>
    intro start view hv
    simp [normalizeViewsFrom] at hv
  | cons v rest ih =>
    intro start view hv
    simp only [normalizeViewsFrom] at hv
    rcases List.mem_cons.mp hv with rfl | hv
    · exact ⟨v, _, rfl⟩
    · exact ih (start + 1) view hv

theorem normalizeViewsFrom_stable (itemCount : ℕ) (l : List JVal) :
    ∀ start : ℕ,
      normalizeViewsFrom itemCount start
        ((normalizeViewsFrom itemCount start l).map viewToJVal) =
      normalizeViewsFrom itemCount start l := by
  induction l with
  | nil => intro start; rfl
  | cons v rest ih =>
    intro start
    simp only [normalizeViewsFrom, List.map_cons]
    obtain ⟨h1, h2, h3, h4⟩ := normalizeView_inv v itemCount (start == 0)
    rw [normalizeView_stable _ itemCount (start == 0) h1 h2 h3 h4, ih (start + 1)]

theorem jget_diagramToJVal_t (r : CompactDiagram) :
    jget (diagramToJVal r) "t" = .str r.t := rfl

theorem jget_diagramToJVal_i (r : CompactDiagram) :
    jget (diagramToJVal r) "i" = .arr (r.i.map itemToJVal) := rfl

theorem jget_diagramToJVal_v (r : CompactDiagram) :
    jget (diagramToJVal r) "v" = .arr (r.v.map viewToJVal) := rfl

/-- C3 (amended): re-normalizing a normalized diagram is the identity, for
any existing-icon set whose built icon-id set does not contain the empty
string (in particular for every set of icons whose ids are strings). -/
theorem normalizeCompactDiagram_idempotent (d : JVal) (icons : List JVal)
    (he : "" ∉ buildIconIdSet icons) :
    normalizeCompactDiagram (diagramToJVal (normalizeCompactDiagram d icons))
      icons = normalizeCompactDiagram d icons := by
  have hb := block_mem_buildIconIdSet icons
  set r := normalizeCompactDiagram d icons with hr
  have hrt : r.t = (if jsTrim (toSafeString (jget d "t")) = "" then "Untitled"
      else jsTrim (toSafeString (jget d "t"))) := by rw [hr]; rfl
  have hri : r.i = normalizeItemsFrom (buildIconIdSet icons) 0
      (asArray (jget d "i")) := by rw [hr]; rfl
  have hrv : r.v = normalizeViewsFrom r.i.length 0
      (if (asArray (jget d "v")).length = 0 then [JVal.arr []]
       else asArray (jget d "v")) := by rw [hr]; rfl
  have hrm : r.meta = ("compact", "1.0") := by rw [hr]; rfl
  have htfix : jsTrim r.t = r.t ∧ r.t ≠ "" := by
    rw [hrt]
    split
    · exact ⟨by decide, by decide⟩
    · rename_i hne
      exact ⟨jsTrim_idem _, hne⟩
  have hvne : ¬r.v.length = 0 := by
    rw [hrv, normalizeViewsFrom_length]
    split
    · simp
    · rename_i h
      exact h
  have hitems : normalizeItemsFrom (buildIconIdSet icons) 0
      (r.i.map itemToJVal) = r.i := by
    rw [hri]
    exact normalizeItemsFrom_stable _ _ hb he 0
  have hviews : normalizeViewsFrom r.i.length 0 (r.v.map viewToJVal) = r.v := by
    rw [hrv]
    exact normalizeViewsFrom_stable r.i.length _ 0
  show normalizeCompactDiagram (diagramToJVal r) icons = ⟨r.t, r.i, r.v, r.meta⟩
  simp only [normalizeCompactDiagram, normalizeItems, jget_diagramToJVal_t,
    jget_diagramToJVal_i, jget_diagramToJVal_v, toSafeString, asArray,
    List.length_map]
  rw [htfix.1, if_neg htfix.2, if_neg hvne, hitems, hviews, hrm]

/-! ## Equivalence of the position pass with its specification -/

theorem claimPositionsAux_eq (itemCount : ℕ) (raw : List JVal) :
    ∀ (acc : List CPos) (used : List ℚ),
      (∀ q : ℚ, q ∈ used ↔ q ∈ acc.map (fun p => p.1)) →
      claimPositionsAux (fun n => decide (3 ≤ n)) itemCount acc raw =
        acc ++ normPositions itemCount used raw := by
  induction raw with
  | nil =>
    intro acc used _
    simp [claimPositionsAux, normPositions]
  | cons pos rest ih =>
    intro acc used hiff
    cases pos with
    | arr l =>
      by_cases hlen : l.length < 3
      · have hlenb : ¬(decide (3 ≤ l.length) = true) := by simp; omega
        simp only [claimPositionsAux, claimPosValue, normPositions,
          if_neg hlenb, if_pos hlen]
        exact ih acc used hiff
      · have hlenb : decide (3 ≤ l.length) = true := by simp; omega
        cases h0 : toNumber (l.getD 0 JVal.undefined) with
        | fin idx =>
          cases h1 : toNumber (l.getD 1 JVal.undefined) with
          | fin x =>
            cases h2 : toNumber (l.getD 2 JVal.undefined) with
            | fin y =>
              simp only [claimPositionsAux, claimPosValue, normPositions,
                h0, h1, h2, hlenb, if_neg hlen, if_true]
              by_cases hin : idx < 0 ∨ (itemCount : ℚ) ≤ idx ∨ idx ∈ used
              · have hnotc : ¬(0 ≤ idx ∧ idx < (itemCount : ℚ) ∧
                    idx ∉ acc.map (fun p => p.1)) := by
                  rintro ⟨ha, hbb, hcc⟩
                  rcases hin with h | h | h
                  · exact absurd ha (not_le.mpr h)
                  · exact absurd hbb (not_lt.mpr h)
                  · exact hcc ((hiff idx).mp h)
                rw [if_neg hnotc, if_pos hin]
                exact ih acc used hiff
              · push_neg at hin
                have hc : 0 ≤ idx ∧ idx < (itemCount : ℚ) ∧
                    idx ∉ acc.map (fun p => p.1) :=
                  ⟨hin.1, hin.2.1, fun hm => hin.2.2 ((hiff idx).mpr hm)⟩
                rw [if_pos hc, if_neg (by push_neg; exact hin)]
                have hiff2 : ∀ q : ℚ, q ∈ idx :: used ↔
                    q ∈ (acc ++ [(idx, jsRound x, jsRound y)]).map
                      (fun p => p.1) := by
                  intro q
                  simp only [List.mem_cons, List.map_append, List.mem_append,
                    List.map_cons, List.map_nil, List.mem_singleton]
                  rw [hiff q]
                  tauto
                show claimPositionsAux (fun n => decide (3 ≤ n)) itemCount
                  (acc ++ [(idx, jsRound x, jsRound y)]) rest = _
                rw [ih _ (idx :: used) hiff2]
                simp
            | nan =>
              simp only [claimPositionsAux, claimPosValue, normPositions,
                h0, h1, h2, hlenb, if_neg hlen, if_true]
              exact ih acc used hiff
            | inf b2 =>
              simp only [claimPositionsAux, claimPosValue, normPositions,
                h0, h1, h2, hlenb, if_neg hlen, if_true]
              exact ih acc used hiff
          | nan =>
            cases h2 : toNumber (l.getD 2 JVal.undefined) <;>
              (simp only [claimPositionsAux, claimPosValue, normPositions,
                h0, h1, h2, hlenb, if_neg hlen, if_true];
               exact ih acc used hiff)
          | inf b1 =>
            cases h2 : toNumber (l.getD 2 JVal.undefined) <;>
              (simp only [claimPositionsAux, claimPosValue, normPositions,
                h0, h1, h2, hlenb, if_neg hlen, if_true];
               exact ih acc used hiff)
        | nan =>
          cases h1 : toNumber (l.getD 1 JVal.undefined) <;>
            cases h2 : toNumber (l.getD 2 JVal.undefined) <;>
              (simp only [claimPositionsAux, claimPosValue, normPositions,
                h0, h1, h2, hlenb, if_neg hlen, if_true];
               exact ih acc used hiff)
        | inf b0 =>
          cases h1 : toNumber (l.getD 1 JVal.undefined) <;>
            cases h2 : toNumber (l.getD 2 JVal.undefined) <;>
              (simp only [claimPositionsAux, claimPosValue, normPositions,
                h0, h1, h2, hlenb, if_neg hlen, if_true];
               exact ih acc used hiff)
    | str s =>
      simp only [claimPositionsAux, claimPosValue, normPositions]
      exact ih acc used hiff
    | num n =>
      simp only [claimPositionsAux, claimPosValue, normPositions]
      exact ih acc used hiff
    | bool b =>
      simp only [claimPositionsAux, claimPosValue, normPositions]
      exact ih acc used hiff
    | null =>
      simp only [claimPositionsAux, claimPosValue, normPositions]
      exact ih acc used hiff
    | undefined =>
      simp only [claimPositionsAux, claimPosValue, normPositions]
      exact ih acc used hiff
    | obj fields =>
      simp only [claimPositionsAux, claimPosValue, normPositions]
      exact ih acc used hiff

/-! ## The claims -/

/-- C1: the full-coverage guarantee fails on the code as written: for the
3-item diagram whose first raw view places the fractional in-range item
index `1.5`, the position pass keeps that entry (the code checks
finiteness, range and duplication but never integrality), and auto-layout
then appends positions for all three integer indices, so the normalized
first view has 4 positions whose indices are `1.5, 0, 1, 2` — not exactly
`N = 3` entries covering `0..2` as the specification guarantees. -/
theorem normalizeView_fractionalIndex_breaks_coverage :
    (normalizeCompactDiagram fractionalIndexDiagram []).i.length = 3 ∧
    ((normalizeCompactDiagram fractionalIndexDiagram []).v.getD 0 ([], [])).1 =
      [((3 : ℚ) / 2, 0, 0), (0, 0, 0), (1, 4, 0), (2, 8, 0)] := by decide

/-- C2: index-safety: in every view of a normalized diagram, every
position's item index and every connection's two indices lie inside
`[0, itemCount)`, where `itemCount` is the length of the normalized item
list. -/
theorem normalized_views_index_safety (d : JVal) (icons : List JVal)
    (view : CView) (hv : view ∈ (normalizeCompactDiagram d icons).v) :
    (∀ p ∈ view.1, 0 ≤ p.1 ∧
      p.1 < ((normalizeCompactDiagram d icons).i.length : ℚ)) ∧
    (∀ c ∈ view.2,
      (0 ≤ c.1 ∧ c.1 < ((normalizeCompactDiagram d icons).i.length : ℚ)) ∧
      (0 ≤ c.2 ∧ c.2 < ((normalizeCompactDiagram d icons).i.length : ℚ))) := by
  have hv2 : view ∈ normalizeViewsFrom
      ((normalizeCompactDiagram d icons).i.length) 0
      (if (asArray (jget d "v")).length = 0 then [JVal.arr []]
       else asArray (jget d "v")) := hv
  obtain ⟨v0, b, rfl⟩ := normalizeViewsFrom_mem _ _ _ _ hv2
  obtain ⟨h1, _, _, h4⟩ :=
    normalizeView_inv v0 ((normalizeCompactDiagram d icons).i.length) b
  exact ⟨h1, fun c hc =>
    ⟨⟨(h4 c hc).1, (h4 c hc).2.1⟩, ⟨(h4 c hc).2.2.1, (h4 c hc).2.2.2⟩⟩⟩

/-- Witness for C2 at a concrete diagram. -/
theorem normalized_views_index_safety_witness :
    0 ≤ (0 : ℚ) ∧
    (0 : ℚ) < ((normalizeCompactDiagram singleItemDiagram []).i.length : ℚ) := by
  have h := normalized_views_index_safety singleItemDiagram []
    ([((0 : ℚ), 0, 0)], []) (by decide)
  exact h.1 ((0 : ℚ), 0, 0) (by decide)

/-- C3 counterexample: idempotence fails as universally stated. With an
existing icon whose `id` is the (truthy) empty array, `String(id)` puts the
empty string into the icon-id set; normalizing an item with raw icon `---`
then resolves, via the compacted candidate, to the empty string, and a
second normalization maps that empty icon to `block` — so the second
application differs from the first. -/
theorem normalizeCompactDiagram_not_idempotent_with_empty_icon_id :
    normalizeCompactDiagram (diagramToJVal
      (normalizeCompactDiagram tripleDashDiagram emptyIdIconList))
      emptyIdIconList ≠
    normalizeCompactDiagram tripleDashDiagram emptyIdIconList := by decide

/-- Witness for the amended C3 at a concrete input. -/
theorem normalizeCompactDiagram_idempotent_witness :
    normalizeCompactDiagram (diagramToJVal
      (normalizeCompactDiagram tripleDashDiagram [])) [] =
    normalizeCompactDiagram tripleDashDiagram [] :=
  normalizeCompactDiagram_idempotent tripleDashDiagram [] (by decide)

/-- C4: item normalization preserves length and order exactly, and entry
`j` of the output is built from entry `j` of the input by the documented
field rules: name is the first element coerced to string and trimmed (or
`Item <j+1>` when that is empty), icon is the resolver applied to the
second element coerced to string, description is the third element coerced
to string (empty when absent). -/
theorem normalizeItems_preserves_length_and_fields (rawItems : List JVal)
    (iconIds : List String) :
    (normalizeItems rawItems iconIds).length = rawItems.length ∧
    ∀ j, j < rawItems.length →
      (normalizeItems rawItems iconIds)[j]? = some
        ((if jsTrim (toSafeString ((asArray (rawItems.getD j .undefined)).getD 0
              .undefined)) = ""
          then "Item " ++ natToString (j + 1)
          else jsTrim (toSafeString ((asArray (rawItems.getD j .undefined)).getD 0
              .undefined))),
         normalizeIconId (toSafeString ((asArray (rawItems.getD j
           .undefined)).getD 1 .undefined)) iconIds,
         toSafeString ((asArray (rawItems.getD j .undefined)).getD 2 .undefined)) := by
  refine ⟨normalizeItemsFrom_length iconIds rawItems 0, fun j hj => ?_⟩
  show (normalizeItemsFrom iconIds 0 rawItems)[j]? = _
  rw [normalizeItemsFrom_getElem, List.getElem?_eq_getElem hj]
  have hD : rawItems.getD j .undefined = rawItems[j] := by
    rw [List.getD_eq_getElem?_getD, List.getElem?_eq_getElem hj]
    rfl
  rw [hD]
  simp only [Nat.zero_add, Option.map_some']
  rfl

/-- Witness for C4 at a concrete raw item. -/
theorem normalizeItems_preserves_length_and_fields_witness :
    (normalizeItems [JVal.arr [.str " A ", .str "person"]]
      AVAILABLE_ICON_IDS)[0]? = some ("A", "user", "") := by
  have h := normalizeItems_preserves_length_and_fields
    [JVal.arr [.str " A ", .str "person"]] AVAILABLE_ICON_IDS
  rw [h.2 0 (by decide)]
  decide

/-- C5: the icon resolver is total into the known-icon set: for every
string and every set built by `buildIconIdSet`, the result is a member of
that set, and a blank input resolves to the default `block`. -/
theorem normalizeIconId_total_in_set (iconId : String) (existing : List JVal) :
    normalizeIconId iconId (buildIconIdSet existing) ∈ buildIconIdSet existing ∧
    (jsTrim iconId = "" →
      normalizeIconId iconId (buildIconIdSet existing) = "block") := by
  constructor
  · rcases (normalizeIconId_props iconId (buildIconIdSet existing)).1 with h | h
    · exact h
    · rw [h]
      exact block_mem_buildIconIdSet existing
  · intro h
    simp only [normalizeIconId, show toSafeString (.str iconId) = iconId from
      rfl, h]
    rw [if_pos (show jsToLower "" = "" from rfl)]

/-- Witness for C5 at the blank input. -/
theorem normalizeIconId_total_in_set_witness :
    normalizeIconId "" (buildIconIdSet []) = "block" ∧
    "block" ∈ buildIconIdSet [] := by
  have h := normalizeIconId_total_in_set "" []
  have hb := h.2 (by decide)
  exact ⟨hb, hb ▸ h.1⟩

/-- C6: the diagram normalizer is total with the documented defaults: the
normalized title is never empty (and is `Untitled` whenever the raw title
trims to the empty string), the normalized view list is never empty, and
when the raw view list is empty or absent it consists of exactly the
normalization of one synthesized empty view. -/
theorem normalizeCompactDiagram_total_defaults (d : JVal) (icons : List JVal) :
    (normalizeCompactDiagram d icons).t ≠ "" ∧
    (jsTrim (toSafeString (jget d "t")) = "" →
      (normalizeCompactDiagram d icons).t = "Untitled") ∧
    0 < (normalizeCompactDiagram d icons).v.length ∧
    (asArray (jget d "v") = [] →
      (normalizeCompactDiagram d icons).v =
        [normalizeView (JVal.arr [])
          (normalizeCompactDiagram d icons).i.length true]) := by
  have hrt : (normalizeCompactDiagram d icons).t =
      (if jsTrim (toSafeString (jget d "t")) = "" then "Untitled"
       else jsTrim (toSafeString (jget d "t"))) := rfl
  have hrv : (normalizeCompactDiagram d icons).v = normalizeViewsFrom
      (normalizeCompactDiagram d icons).i.length 0
      (if (asArray (jget d "v")).length = 0 then [JVal.arr []]
       else asArray (jget d "v")) := rfl
  refine ⟨?_, ?_, ?_, ?_⟩
  · rw [hrt]
    split
    · decide
    · rename_i hne
      exact hne
  · intro h
    rw [hrt, if_pos h]
  · rw [hrv, normalizeViewsFrom_length]
    split
    · simp
    · rename_i h
      omega
  · intro h
    rw [hrv, if_pos (by rw [h]; rfl)]
    rfl

/-- Witness for C6 at a non-object input. -/
theorem normalizeCompactDiagram_total_defaults_witness :
    (normalizeCompactDiagram JVal.null []).t = "Untitled" ∧
    (normalizeCompactDiagram JVal.null []).v =
      [normalizeView (JVal.arr [])
        (normalizeCompactDiagram JVal.null []).i.length true] := by
  have h := normalizeCompactDiagram_total_defaults JVal.null []
  exact ⟨h.2.1 (by decide), h.2.2.2 rfl⟩

/-- C7: the schema validator rejects the three minimal violations with the
fail-fast messages of the source: a missing title, an empty item list, and
a one-element item (whose icon is missing) at index 0. -/
theorem validateAICompactDiagram_rejects_minimal_violations :
    validateAICompactDiagram (JVal.obj []) =
      .error "Diagram must have a title string in \"t\"" ∧
    validateAICompactDiagram (JVal.obj [("t", .str "x"), ("i", .arr [])]) =
      .error "Diagram must have at least one item in \"i\"" ∧
    validateAICompactDiagram (JVal.obj [("t", .str "x"),
        ("i", .arr [.arr [.str "A"]])]) =
      .error "Item at index 0 must be [name, icon, description?]" :=
  ⟨rfl, rfl, rfl⟩

/-- C8 counterexample: the claim says the position pass keeps exactly the
entries that are 3-element arrays (with the further conditions); the code
keeps any array of length at least 3. On the 4-element entry
`[0, 1, 2, 3]` with one item, the code keeps `(0, 1, 2)` while the claim
as stated (`claimPositions` with the exact-3 arity test) keeps nothing. -/
theorem position_pass_keeps_four_element_entry :
    (normalizeView (JVal.arr [.arr [.arr [.num (.fin 0), .num (.fin 1),
        .num (.fin 2), .num (.fin 3)]], .arr []]) 1 false).1 = [(0, 1, 2)] ∧
    claimPositions (fun n => n == 3) 1 [.arr [.num (.fin 0), .num (.fin 1),
        .num (.fin 2), .num (.fin 3)]] = [] := by decide

/-- C8 (amended): the position pass keeps exactly those raw entries that
are arrays with at least 3 elements whose first three elements coerce to
finite numbers, whose item index lies in `[0, itemCount)` and was not
placed earlier in the same pass (first occurrence wins, duplicates dropped
silently), with the retained coordinates rounded to the nearest integer:
it equals the specification-side `claimPositions` with the at-least-3
arity test. -/
theorem position_pass_characterization (rawPositions rawConnections : List JVal)
    (itemCount : ℕ) :
    (normalizeView (JVal.arr [.arr rawPositions, .arr rawConnections])
      itemCount false).1 =
    claimPositions (fun n => decide (3 ≤ n)) itemCount rawPositions := by
  show normPositions itemCount [] rawPositions = _
  rw [claimPositions, claimPositionsAux_eq itemCount rawPositions [] []
    (by simp)]
  rfl

/-- C9: the connection pass is exactly the order- and multiplicity-
preserving filter of the raw list by the validity test (array of length at
least 2 whose two indices coerce to finite numbers inside
`[0, itemCount)`); in particular self-loops and duplicates pass through
un-deduplicated, and an out-of-range connection such as `[0, 7]` with 3
items is dropped silently. -/
theorem connection_pass_characterization :
    (∀ (rawPositions rawConnections : List JVal) (itemCount : ℕ),
      (normalizeView (JVal.arr [.arr rawPositions, .arr rawConnections])
        itemCount false).2 =
      rawConnections.filterMap (claimConnValue itemCount)) ∧
    (normalizeView (JVal.arr [.arr [],
        .arr [.arr [.num (.fin 0), .num (.fin 7)]]]) 3 false).2 = [] ∧
    (normalizeView (JVal.arr [.arr [],
        .arr [.arr [.num (.fin 0), .num (.fin 0)],
              .arr [.num (.fin 0), .num (.fin 1)],
              .arr [.num (.fin 0), .num (.fin 1)]]]) 2 false).2 =
      [(0, 0), (0, 1), (0, 1)] := by
  refine ⟨fun rp rc n => ?_, by decide, by decide⟩
  show normConnections n rc = _
  exact normConnections_eq_filterMap n rc

/-- C10: the icon resolver only ever returns strings with no uppercase
character — every candidate is derived from the lower-cased input or the
lowercase alias table — so a host-registered custom icon id containing an
uppercase letter, although a member of the built icon-id set, is never
returned: resolving it verbatim yields the default `block`. -/
theorem normalizeIconId_never_uppercase :
    (∀ (s : String) (ids : List String),
      hasUpper (normalizeIconId s ids) = false) ∧
    "MyIcon" ∈ buildIconIdSet [.obj [("id", .str "MyIcon")]] ∧
    normalizeIconId "MyIcon" (buildIconIdSet [.obj [("id", .str "MyIcon")]]) =
      "block" := by
  refine ⟨fun s ids => (normalizeIconId_props s ids).2.2, by decide, by decide⟩
